import Mathlib

/-!
Shallow embedding of the timing-statistics layer of
`vpr/src/route/rr_graph_clock.cpp` (the timing-utility portion of the file:
negative-slack aggregation, slack histograms, critical-path selection,
clock-fanout counting and relaxed criticality calculation).

Machine `float`/`double` values are modelled as exact rationals (`ℚ`);
the IEEE special values used as sentinels (`NaN`, `±infinity`) are modelled
with `Option ℚ` (`none` is the sentinel).  The external analyzer's per-node
tag streams are modelled as explicit Lean lists enumerated in iteration
order, which flattens the `for node / for tag` double loops of the source
into a single fold over the flattened tag list.  `VTR_ASSERT` failures
(fatal aborts) are modelled by returning `none` from an `Option`-valued
function.
-/

namespace TimingUtil

/-- Clock domain identifier (`tatum::DomainId`). -/
abbrev DomainId := Nat

/-- Ordered (launch, capture) clock-domain pair (`DomainPair`), compared by
value as a map key. -/
abbrev DomainPair := DomainId × DomainId

/-- Tag kinds of `tatum::TagType`. -/
inductive TagType where
  | CLOCK_LAUNCH
  | CLOCK_CAPTURE
  | DATA_ARRIVAL
  | DATA_REQUIRED
  | SLACK
deriving DecidableEq, Repr

/-- A timing tag (`tatum::TimingTag`): a kind, a launch/capture clock-domain
pair and a signed time value in seconds. -/
structure TimingTag where
  ttype : TagType
  launch : DomainId
  capture : DomainId
  time : ℚ
deriving DecidableEq, Repr

/-! ## Negative-slack aggregation (`find_setup_total_negative_slack`,
`find_setup_worst_negative_slack`)

The source iterates over every logical-output node of the timing graph and
over every setup-slack tag of that node; the embedding takes the flattened
list of the tag time values in iteration order. -/

/-- Loop body of `find_setup_total_negative_slack`:
`if(slack < 0.) tns += slack;`. -/
def tns_step (tns slack : ℚ) : ℚ :=
  if slack < 0 then tns + slack else tns

/-- Embeds `find_setup_total_negative_slack`: starting from `tns = 0`, add
each slack that is strictly negative. -/
def find_setup_total_negative_slack (slacks : List ℚ) : ℚ :=
  slacks.foldl tns_step 0

/-- Loop body of `find_setup_worst_negative_slack`:
`if(slack < 0.) wns = std::min(wns, slack);`. -/
def wns_step (wns slack : ℚ) : ℚ :=
  if slack < 0 then min wns slack else wns

/-- Embeds `find_setup_worst_negative_slack`: starting from `wns = 0`, take
the minimum with each slack that is strictly negative. -/
def find_setup_worst_negative_slack (slacks : List ℚ) : ℚ :=
  slacks.foldl wns_step 0

lemma tns_foldl_eq (slacks : List ℚ) (a : ℚ) :
    slacks.foldl tns_step a
      = a + (slacks.filter (fun s => decide (s < 0))).sum := by
  induction slacks generalizing a with
  | nil => simp
  | cons s rest ih =>
    simp only [List.foldl_cons, List.filter_cons, tns_step]
    by_cases hs : s < 0
    · rw [if_pos hs, ih]
      simp [hs, add_assoc]
    · rw [if_neg hs, ih]
      simp [hs]

lemma wns_foldl_spec (slacks : List ℚ) (a : ℚ) :
    slacks.foldl wns_step a ≤ a
    ∧ (∀ s ∈ slacks, s < 0 → slacks.foldl wns_step a ≤ s)
    ∧ ((∀ s ∈ slacks, 0 ≤ s) → slacks.foldl wns_step a = a) := by
  induction slacks generalizing a with
  | nil => simp
  | cons s rest ih =>
    by_cases hs : s < 0
    · have hstep : wns_step a s = min a s := by rw [wns_step, if_pos hs]
      rw [List.foldl_cons, hstep]
      refine ⟨le_trans (ih (min a s)).1 (min_le_left _ _), ?_, ?_⟩
      · intro x hx hxneg
        rcases List.mem_cons.mp hx with rfl | h
        · exact le_trans (ih (min a x)).1 (min_le_right _ _)
        · exact (ih (min a s)).2.1 x h hxneg
      · intro hall
        exact absurd (hall s (List.mem_cons_self s rest)) (not_le.mpr hs)
    · have hstep : wns_step a s = a := by rw [wns_step, if_neg hs]
      rw [List.foldl_cons, hstep]
      refine ⟨(ih a).1, ?_, ?_⟩
      · intro x hx hxneg
        rcases List.mem_cons.mp hx with rfl | h
        · exact absurd hxneg hs
        · exact (ih a).2.1 x h hxneg
      · intro hall
        exact (ih a).2.2 (fun x hx => hall x (List.mem_cons_of_mem s hx))

lemma list_sum_nonpos (l : List ℚ) (h : ∀ x ∈ l, x ≤ 0) : l.sum ≤ 0 := by
  induction l with
  | nil => simp
  | cons x rest ih =>
    rw [List.sum_cons]
    have hx := h x (List.mem_cons_self x rest)
    have hr := ih (fun y hy => h y (List.mem_cons_of_mem x hy))
    linarith

/-- C5: `find_setup_total_negative_slack` equals the sum of exactly those
tag values that are strictly less than zero, the result is `≤ 0`, and adding
a tag with non-negative slack anywhere in the tag stream leaves the result
unchanged. -/
theorem claim_C5_total_negative_slack :
    (∀ slacks : List ℚ,
      find_setup_total_negative_slack slacks
        = (slacks.filter (fun s => decide (s < 0))).sum)
    ∧ (∀ slacks : List ℚ, find_setup_total_negative_slack slacks ≤ 0)
    ∧ (∀ (l1 l2 : List ℚ) (s : ℚ), 0 ≤ s →
        find_setup_total_negative_slack (l1 ++ s :: l2)
          = find_setup_total_negative_slack (l1 ++ l2)) := by
  have hchar : ∀ slacks : List ℚ,
      find_setup_total_negative_slack slacks
        = (slacks.filter (fun s => decide (s < 0))).sum := by
    intro slacks
    rw [find_setup_total_negative_slack, tns_foldl_eq, zero_add]
  refine ⟨hchar, ?_, ?_⟩
  · intro slacks
    rw [hchar]
    apply list_sum_nonpos
    intro x hx
    have := List.of_mem_filter hx
    exact le_of_lt (of_decide_eq_true this)
  · intro l1 l2 s hs
    rw [hchar, hchar, List.filter_append, List.filter_append, List.filter_cons]
    have : ¬ s < 0 := not_lt.mpr hs
    simp [this]

/-- C5 witness: a concrete non-negative slack added to a concrete stream
leaves the total negative slack unchanged. -/
theorem claim_C5_witness :
    (0:ℚ) ≤ 3
    ∧ find_setup_total_negative_slack ([1] ++ (3:ℚ) :: [-2])
        = find_setup_total_negative_slack ([1] ++ [-2]) :=
  ⟨by norm_num, claim_C5_total_negative_slack.2.2 [1] [-2] 3 (by norm_num)⟩

/-- C6: `find_setup_worst_negative_slack` is `≤ 0`, is `≤` every strictly
negative tag value present, and equals exactly `0` (the zero baseline) when
no tag value is negative. -/
theorem claim_C6_worst_negative_slack :
    (∀ slacks : List ℚ, find_setup_worst_negative_slack slacks ≤ 0)
    ∧ (∀ slacks : List ℚ, ∀ s ∈ slacks, s < 0 →
        find_setup_worst_negative_slack slacks ≤ s)
    ∧ (∀ slacks : List ℚ, (∀ s ∈ slacks, 0 ≤ s) →
        find_setup_worst_negative_slack slacks = 0) :=
  ⟨fun slacks => (wns_foldl_spec slacks 0).1,
   fun slacks s hs hneg => (wns_foldl_spec slacks 0).2.1 s hs hneg,
   fun slacks hall => (wns_foldl_spec slacks 0).2.2 hall⟩

/-- C6 witness: concrete streams with and without a negative slack. -/
theorem claim_C6_witness :
    ((-3:ℚ) ∈ [(2:ℚ), -3] ∧ (-3:ℚ) < 0
      ∧ find_setup_worst_negative_slack [(2:ℚ), -3] ≤ -3)
    ∧ ((∀ s ∈ [(1:ℚ), 2], (0:ℚ) ≤ s)
      ∧ find_setup_worst_negative_slack [(1:ℚ), 2] = 0) :=
  ⟨⟨by norm_num, by norm_num,
    claim_C6_worst_negative_slack.2.1 [(2:ℚ), -3] (-3) (by norm_num) (by norm_num)⟩,
   ⟨by norm_num,
    claim_C6_worst_negative_slack.2.2 [(1:ℚ), 2] (by norm_num)⟩⟩

/-! ## Pin criticality aggregation (`calculate_clb_net_pin_criticality`)

The netlist lookup `find_clb_pin_connected_atom_pins` (an external
collaborator) is modelled by passing the resulting list of atom pins
directly; the analyzer's `timing_info.setup_pin_criticality` is modelled as
a function from atom pins to their already-computed criticality. -/

/-- Atom netlist pin identifier (`AtomPinId`). -/
abbrev AtomPinId := Nat

/-- Embeds `calculate_clb_net_pin_criticality`: starting from
`clb_pin_crit = 0`, take the maximum with each connected atom pin's setup
criticality. -/
def calculate_clb_net_pin_criticality (setup_pin_criticality : AtomPinId → ℚ)
    (atom_pins : List AtomPinId) : ℚ :=
  atom_pins.foldl (fun clb_pin_crit atom_pin =>
    max clb_pin_crit (setup_pin_criticality atom_pin)) 0

lemma max_foldl_spec (crit : AtomPinId → ℚ) (pins : List AtomPinId) (a : ℚ) :
    a ≤ pins.foldl (fun c p => max c (crit p)) a
    ∧ (∀ p ∈ pins, crit p ≤ pins.foldl (fun c p => max c (crit p)) a)
    ∧ (pins.foldl (fun c p => max c (crit p)) a = a
        ∨ ∃ p ∈ pins, pins.foldl (fun c p => max c (crit p)) a = crit p) := by
  induction pins generalizing a with
  | nil => simp
  | cons q rest ih =>
    rw [List.foldl_cons]
    refine ⟨le_trans (le_max_left _ _) (ih (max a (crit q))).1, ?_, ?_⟩
    · intro p hp
      rcases List.mem_cons.mp hp with rfl | h
      · exact le_trans (le_max_right _ _) (ih (max a (crit p))).1
      · exact (ih (max a (crit q))).2.1 p h
    · rcases (ih (max a (crit q))).2.2 with h | ⟨p, hp, h⟩
      · rcases max_choice a (crit q) with hm | hm
        · exact Or.inl (h.trans hm)
        · exact Or.inr ⟨q, List.mem_cons_self q rest, h.trans hm⟩
      · exact Or.inr ⟨p, List.mem_cons_of_mem q hp, h⟩

/-- C9: `calculate_clb_net_pin_criticality` returns `0` when the CLB pin
maps to no atom pins, returns the maximum atom-pin setup criticality when
it maps to at least one (criticalities being non-negative), and evaluates
to `0.9` on the atom-pin criticalities `{0.3, 0.9, 0.1}`. -/
theorem claim_C9_clb_pin_criticality :
    (∀ crit : AtomPinId → ℚ, calculate_clb_net_pin_criticality crit [] = 0)
    ∧ (∀ (crit : AtomPinId → ℚ) (pins : List AtomPinId),
        (∀ p ∈ pins, 0 ≤ crit p) → pins ≠ [] →
        (∃ p ∈ pins, calculate_clb_net_pin_criticality crit pins = crit p)
        ∧ ∀ p ∈ pins, crit p ≤ calculate_clb_net_pin_criticality crit pins)
    ∧ calculate_clb_net_pin_criticality
        (fun p => if p = 0 then 3/10 else if p = 1 then 9/10 else 1/10)
        [0, 1, 2] = 9/10 := by
  refine ⟨fun crit => rfl, ?_,
    by norm_num [calculate_clb_net_pin_criticality, List.foldl, max_def]⟩
  intro crit pins hnn hne
  have hspec := max_foldl_spec crit pins 0
  refine ⟨?_, hspec.2.1⟩
  rcases hspec.2.2 with h0 | hex
  · cases pins with
    | nil => exact absurd rfl hne
    | cons q rest =>
      refine ⟨q, List.mem_cons_self q rest, le_antisymm ?_ ?_⟩
      · rw [calculate_clb_net_pin_criticality, h0]
        exact hnn q (List.mem_cons_self q rest)
      · exact hspec.2.1 q (List.mem_cons_self q rest)
  · exact hex

/-- C9 witness: on the concrete atom-pin set `{0, 1, 2}` with non-negative
criticalities the aggregate equals one of the atom-pin criticalities and
dominates all of them. -/
theorem claim_C9_witness :
    (∀ p ∈ [0, 1, 2],
      (0:ℚ) ≤ (fun p => if p = 0 then (3:ℚ)/10 else if p = 1 then 9/10 else 1/10) p)
    ∧ ([0, 1, 2] ≠ ([] : List AtomPinId))
    ∧ (∃ p ∈ [0, 1, 2],
        calculate_clb_net_pin_criticality
          (fun p => if p = 0 then 3/10 else if p = 1 then 9/10 else 1/10) [0, 1, 2]
          = (fun p => if p = 0 then (3:ℚ)/10 else if p = 1 then 9/10 else 1/10) p) :=
  ⟨by norm_num, by decide,
    (claim_C9_clb_pin_criticality.2.1
      (fun p => if p = 0 then 3/10 else if p = 1 then 9/10 else 1/10)
      [0, 1, 2] (by norm_num) (by decide)).1⟩

/-! ## Clock fanout counting (`count_clock_fanouts`)

The timing graph is modelled as the list of its nodes in iteration order;
each node carries its type and the analyzer's
`setup_tags(node, DATA_ARRIVAL)` and `setup_tags(node, DATA_REQUIRED)`
streams.  The `std::map<DomainId, size_t>` accumulator (whose `operator[]`
default-constructs missing entries to zero) is modelled as a total function
`DomainId → Nat` that is zero outside the touched keys. -/

/-- Node kinds of `tatum::NodeType`. -/
inductive NodeType where
  | SOURCE
  | SINK
  | IPIN
  | OPIN
  | CPIN
deriving DecidableEq, Repr

/-- A timing-graph node with the analyzer tag streams that
`count_clock_fanouts` queries. -/
structure TimingNode where
  ntype : NodeType
  arrivalTags : List TimingTag
  requiredTags : List TimingTag
deriving DecidableEq, Repr

/-- Embeds `fanouts[tag.launch_clock_domain()] += 1` on the modelled map. -/
def fanout_bump (f : DomainId → Nat) (d : DomainId) : DomainId → Nat :=
  fun x => if x = d then f x + 1 else f x

/-- Embeds `count_clock_fanouts`: every SOURCE or SINK node contributes one
unit per DATA_ARRIVAL tag and one unit per DATA_REQUIRED tag to the
counter of the tag's launch clock domain. -/
def count_clock_fanouts (nodes : List TimingNode) : DomainId → Nat :=
  nodes.foldl
    (fun fanouts node =>
      if node.ntype = NodeType.SOURCE ∨ node.ntype = NodeType.SINK then
        node.requiredTags.foldl (fun f tag => fanout_bump f tag.launch)
          (node.arrivalTags.foldl (fun f tag => fanout_bump f tag.launch) fanouts)
      else fanouts)
    (fun _ => 0)

lemma bump_foldl_apply (tags : List TimingTag) (f : DomainId → Nat) (d : DomainId) :
    tags.foldl (fun f tag => fanout_bump f tag.launch) f d
      = f d + tags.countP (fun tag => decide (tag.launch = d)) := by
  induction tags generalizing f with
  | nil => simp
  | cons t rest ih =>
    rw [List.foldl_cons, ih, List.countP_cons]
    by_cases h : t.launch = d
    · simp [fanout_bump, h, Nat.add_assoc, Nat.add_comm]
    · have h2 : ¬ d = t.launch := fun hc => h hc.symm
      simp [fanout_bump, h, h2]

lemma count_clock_fanouts_foldl (nodes : List TimingNode)
    (f : DomainId → Nat) (d : DomainId) :
    nodes.foldl
      (fun fanouts node =>
        if node.ntype = NodeType.SOURCE ∨ node.ntype = NodeType.SINK then
          node.requiredTags.foldl (fun f tag => fanout_bump f tag.launch)
            (node.arrivalTags.foldl (fun f tag => fanout_bump f tag.launch) fanouts)
        else fanouts) f d
      = f d + (nodes.map (fun node =>
          if node.ntype = NodeType.SOURCE ∨ node.ntype = NodeType.SINK then
            node.arrivalTags.countP (fun tag => decide (tag.launch = d))
              + node.requiredTags.countP (fun tag => decide (tag.launch = d))
          else 0)).sum := by
  induction nodes generalizing f with
  | nil => simp
  | cons n rest ih =>
    rw [List.foldl_cons, List.map_cons, List.sum_cons, ih]
    by_cases h : n.ntype = NodeType.SOURCE ∨ n.ntype = NodeType.SINK
    · rw [if_pos h, if_pos h, bump_foldl_apply, bump_foldl_apply]
      omega
    · rw [if_neg h, if_neg h]
      omega

/-- C10: `count_clock_fanouts` charges, for every SOURCE or SINK node, one
unit per DATA_ARRIVAL tag and one unit per DATA_REQUIRED tag to the tag's
launch clock domain (so a node carrying both tag kinds for the same launch
domain contributes two), and nodes of other types contribute nothing. -/
theorem claim_C10_clock_fanouts :
    (∀ (nodes : List TimingNode) (d : DomainId),
      count_clock_fanouts nodes d
        = (nodes.map (fun node =>
            if node.ntype = NodeType.SOURCE ∨ node.ntype = NodeType.SINK then
              node.arrivalTags.countP (fun tag => decide (tag.launch = d))
                + node.requiredTags.countP (fun tag => decide (tag.launch = d))
            else 0)).sum)
    ∧ count_clock_fanouts
        [⟨NodeType.SINK, [⟨TagType.DATA_ARRIVAL, 0, 0, 1⟩],
          [⟨TagType.DATA_REQUIRED, 0, 0, 2⟩]⟩] 0 = 2
    ∧ count_clock_fanouts
        [⟨NodeType.IPIN, [⟨TagType.DATA_ARRIVAL, 0, 0, 1⟩],
          [⟨TagType.DATA_REQUIRED, 0, 0, 2⟩]⟩] 0 = 0 := by
  refine ⟨?_, by decide, by decide⟩
  intro nodes d
  rw [count_clock_fanouts, count_clock_fanouts_foldl]
  simp

/-! ## Critical-path selection (`find_least_slack_critical_path_delay`)

`tatum::TimingPathInfo` default-constructs its delay and slack to NaN;
the NaN sentinel is modelled as `none`, and the IEEE comparison
`path_info.slack() < crit_path_info.slack()` (false whenever either side
is NaN) is modelled by `slack_lt`. -/

/-- A per-domain-pair critical path summary (`tatum::TimingPathInfo`). -/
structure TimingPathInfo where
  launch : DomainId
  capture : DomainId
  delay : Option ℚ
  slack : Option ℚ
deriving DecidableEq, Repr

/-- IEEE `<` on possibly-NaN (`none`) time values: any comparison against
NaN is false. -/
def slack_lt (a b : Option ℚ) : Bool :=
  match a, b with
  | some x, some y => decide (x < y)
  | _, _ => false

/-- Loop body of `find_least_slack_critical_path_delay`:
`if(path_info.slack() < crit_path_info.slack() || std::isnan(crit_path_info.slack())) crit_path_info = path_info;`. -/
def least_slack_step (crit_path_info path_info : TimingPathInfo) : TimingPathInfo :=
  if slack_lt path_info.slack crit_path_info.slack || crit_path_info.slack.isNone
  then path_info
  else crit_path_info

/-- The default-constructed `tatum::TimingPathInfo` accumulator: NaN delay
and slack (invalid domains modelled as 0). -/
def default_path_info : TimingPathInfo := ⟨0, 0, none, none⟩

/-- Embeds `find_least_slack_critical_path_delay`: fold of
`least_slack_step` over the per-domain-pair critical paths in enumeration
order. -/
def find_least_slack_critical_path_delay (cpds : List TimingPathInfo) : TimingPathInfo :=
  cpds.foldl least_slack_step default_path_info

lemma slack_lt_some_iff (p : Option ℚ) (a : ℚ) :
    slack_lt p (some a) = true ↔ ∃ q, p = some q ∧ q < a := by
  cases p with
  | none => simp [slack_lt]
  | some q => simp [slack_lt]

lemma least_slack_foldl_spec (cpds : List TimingPathInfo) (acc : TimingPathInfo)
    (a : ℚ) (ha : acc.slack = some a) :
    (cpds.foldl least_slack_step acc = acc
      ∧ ∀ p ∈ cpds, ∀ q, p.slack = some q → a ≤ q)
    ∨ (∃ l1 x l2 xq, cpds = l1 ++ x :: l2
        ∧ cpds.foldl least_slack_step acc = x
        ∧ x.slack = some xq ∧ xq < a
        ∧ (∀ y ∈ l1, ∀ yq, y.slack = some yq → xq < yq)
        ∧ (∀ y ∈ l2, ∀ yq, y.slack = some yq → xq ≤ yq)) := by
  induction cpds generalizing acc a with
  | nil => exact Or.inl ⟨rfl, by simp⟩
  | cons p rest ih =>
    have hstep : least_slack_step acc p
        = if slack_lt p.slack acc.slack then p else acc := by
      rw [least_slack_step, ha]
      simp
    rw [List.foldl_cons, hstep]
    by_cases hlt : slack_lt p.slack acc.slack = true
    · rw [if_pos hlt]
      rw [ha] at hlt
      obtain ⟨pq, hpq, hpqa⟩ := (slack_lt_some_iff _ _).mp hlt
      rcases ih p pq hpq with ⟨heq, hall⟩ | ⟨l1, x, l2, xq, hsplit, heq, hx, hxa, hl1, hl2⟩
      · refine Or.inr ⟨[], p, rest, pq, by simp, heq, hpq, hpqa, by simp, hall⟩
      · refine Or.inr ⟨p :: l1, x, l2, xq, by simp [hsplit], heq, hx,
          lt_trans hxa hpqa, ?_, hl2⟩
        intro y hy yq hyq
        rcases List.mem_cons.mp hy with rfl | h
        · rw [hpq] at hyq
          exact lt_of_lt_of_eq hxa (Option.some_inj.mp hyq)
        · exact hl1 y h yq hyq
    · rw [if_neg hlt]
      rw [ha] at hlt
      have hnot : ∀ q, p.slack = some q → a ≤ q := by
        intro q hq
        by_contra hcon
        exact hlt ((slack_lt_some_iff _ _).mpr ⟨q, hq, not_le.mp hcon⟩)
      rcases ih acc a ha with ⟨heq, hall⟩ | ⟨l1, x, l2, xq, hsplit, heq, hx, hxa, hl1, hl2⟩
      · refine Or.inl ⟨heq, ?_⟩
        intro y hy yq hyq
        rcases List.mem_cons.mp hy with rfl | h
        · exact hnot yq hyq
        · exact hall y h yq hyq
      · refine Or.inr ⟨p :: l1, x, l2, xq, by simp [hsplit], heq, hx, hxa, ?_, hl2⟩
        intro y hy yq hyq
        rcases List.mem_cons.mp hy with rfl | h
        · exact lt_of_lt_of_le hxa (hnot yq hyq)
        · exact hl1 y h yq hyq

/-- C7: `find_least_slack_critical_path_delay` replaces the current best
only when a path's slack is strictly smaller (or the current best is still
the NaN sentinel), so the returned path is the earliest-enumerated path
attaining the minimum slack: every earlier path has strictly greater slack
and every path has greater-or-equal slack.  On the three domain pairs with
slacks `{0.5, -0.2, -0.2}` it returns the first-enumerated of the two
pairs tied at `-0.2`. -/
theorem claim_C7_least_slack_first_wins :
    (∀ cpds : List TimingPathInfo, cpds ≠ [] →
      (∀ p ∈ cpds, p.slack.isSome) →
      ∃ l1 x l2 xq, cpds = l1 ++ x :: l2
        ∧ find_least_slack_critical_path_delay cpds = x
        ∧ x.slack = some xq
        ∧ (∀ y ∈ l1, ∀ yq, y.slack = some yq → xq < yq)
        ∧ (∀ y ∈ cpds, ∀ yq, y.slack = some yq → xq ≤ yq))
    ∧ find_least_slack_critical_path_delay
        [⟨0, 1, some 3, some (1/2)⟩, ⟨1, 2, some 4, some (-1/5)⟩,
          ⟨2, 3, some 5, some (-1/5)⟩]
        = ⟨1, 2, some 4, some (-1/5)⟩ := by
  constructor
  · intro cpds hne hdef
    cases cpds with
    | nil => exact absurd rfl hne
    | cons p rest =>
      have hfirst : least_slack_step default_path_info p = p := by
        rw [least_slack_step, default_path_info]
        simp
      have hfold : find_least_slack_critical_path_delay (p :: rest)
          = rest.foldl least_slack_step p := by
        rw [find_least_slack_critical_path_delay, List.foldl_cons, hfirst]
      obtain ⟨a, ha⟩ := Option.isSome_iff_exists.mp
        (hdef p (List.mem_cons_self p rest))
      rcases least_slack_foldl_spec rest p a ha with
        ⟨heq, hall⟩ | ⟨l1, x, l2, xq, hsplit, heq, hx, hxa, hl1, hl2⟩
      · refine ⟨[], p, rest, a, by simp, by rw [hfold, heq], ha, by simp, ?_⟩
        intro y hy yq hyq
        rcases List.mem_cons.mp hy with rfl | h
        · rw [ha] at hyq
          exact le_of_eq (Option.some_inj.mp hyq)
        · exact hall y h yq hyq
      · refine ⟨p :: l1, x, l2, xq, by simp [hsplit], by rw [hfold, heq], hx, ?_, ?_⟩
        · intro y hy yq hyq
          rcases List.mem_cons.mp hy with rfl | h
          · rw [ha] at hyq
            exact (Option.some_inj.mp hyq) ▸ hxa
          · exact hl1 y h yq hyq
        · intro y hy yq hyq
          rcases List.mem_cons.mp hy with rfl | h
          · rw [ha] at hyq
            exact le_of_lt ((Option.some_inj.mp hyq) ▸ hxa)
          · rw [hsplit] at h
            rcases List.mem_append.mp h with h1 | h2
            · exact le_of_lt (hl1 y h1 yq hyq)
            · rcases List.mem_cons.mp h2 with rfl | h3
              · rw [hx] at hyq
                exact le_of_eq (Option.some_inj.mp hyq)
              · exact hl2 y h3 yq hyq
  · norm_num [find_least_slack_critical_path_delay, List.foldl,
      least_slack_step, default_path_info, slack_lt]

/-- C7 witness: the theorem instantiated on the three-path scenario with
slacks `{0.5, -0.2, -0.2}`. -/
theorem claim_C7_witness :
    ([⟨0, 1, some 3, some (1/2)⟩, ⟨1, 2, some 4, some (-1/5)⟩,
        ⟨2, 3, some 5, some (-1/5)⟩] : List TimingPathInfo) ≠ []
    ∧ (∀ p ∈ ([⟨0, 1, some 3, some (1/2)⟩, ⟨1, 2, some 4, some (-1/5)⟩,
        ⟨2, 3, some 5, some (-1/5)⟩] : List TimingPathInfo), p.slack.isSome)
    ∧ ∃ l1 x l2 xq,
        ([⟨0, 1, some 3, some (1/2)⟩, ⟨1, 2, some 4, some (-1/5)⟩,
          ⟨2, 3, some 5, some (-1/5)⟩] : List TimingPathInfo) = l1 ++ x :: l2
        ∧ find_least_slack_critical_path_delay
            [⟨0, 1, some 3, some (1/2)⟩, ⟨1, 2, some 4, some (-1/5)⟩,
              ⟨2, 3, some 5, some (-1/5)⟩] = x
        ∧ x.slack = some xq
        ∧ (∀ y ∈ l1, ∀ yq, y.slack = some yq → xq < yq)
        ∧ (∀ y ∈ ([⟨0, 1, some 3, some (1/2)⟩, ⟨1, 2, some 4, some (-1/5)⟩,
            ⟨2, 3, some 5, some (-1/5)⟩] : List TimingPathInfo),
            ∀ yq, y.slack = some yq → xq ≤ yq) :=
  ⟨by simp, by simp,
    claim_C7_least_slack_first_wins.1 _ (by simp) (by simp)⟩

/-! ## Per-pair worst hold slack (`find_hold_worst_slack`) and the hold
summary table (`print_hold_timing_summary`)

The `float` accumulator starts at `+infinity`; the sentinel is modelled as
`none`, with `min(+infinity, slack) = slack` becoming the `none => slack`
case.  `print_hold_timing_summary` is modelled by the list of table rows it
prints: the `continue` on the infinity sentinel becomes dropping `none`
results in a `filterMap`. -/

/-- Loop body of `find_hold_worst_slack`: on a tag matching the requested
launch/capture pair, `worst_slack = std::min(worst_slack, slack)`. -/
def hold_worst_step (launch capture : DomainId) (worst_slack : Option ℚ)
    (tag : TimingTag) : Option ℚ :=
  if tag.launch = launch ∧ tag.capture = capture then
    some (match worst_slack with
          | none => tag.time
          | some w => min w tag.time)
  else worst_slack

/-- Embeds `find_hold_worst_slack`: minimum slack over the tags matching
the requested domain pair, `none` (the `+infinity` sentinel) when none
match. -/
def find_hold_worst_slack (tags : List TimingTag) (launch capture : DomainId) :
    Option ℚ :=
  tags.foldl (hold_worst_step launch capture) none

/-- Embeds the intra-domain loop of `print_hold_timing_summary`: one table
row per clock domain, skipping domains whose worst slack is the infinity
sentinel. -/
def print_hold_intra_summary (clock_domains : List DomainId)
    (tags : List TimingTag) : List (DomainId × ℚ) :=
  clock_domains.filterMap (fun domain =>
    (find_hold_worst_slack tags domain domain).map
      (fun worst_slack => (domain, worst_slack)))

/-- Embeds the inter-domain double loop of `print_hold_timing_summary`:
rows for distinct launch/capture pairs, again skipping the sentinel. -/
def print_hold_inter_summary (clock_domains : List DomainId)
    (tags : List TimingTag) : List (DomainId × DomainId × ℚ) :=
  clock_domains.flatMap (fun launch_domain =>
    clock_domains.filterMap (fun capture_domain =>
      if launch_domain ≠ capture_domain then
        (find_hold_worst_slack tags launch_domain capture_domain).map
          (fun worst_slack => (launch_domain, capture_domain, worst_slack))
      else none))

lemma hold_worst_foldl_some (launch capture : DomainId) (tags : List TimingTag)
    (a : ℚ) :
    ∃ w, tags.foldl (hold_worst_step launch capture) (some a) = some w
      ∧ w ≤ a
      ∧ (w = a ∨ ∃ t ∈ tags, (t.launch = launch ∧ t.capture = capture) ∧ t.time = w)
      ∧ ∀ t ∈ tags, t.launch = launch → t.capture = capture → w ≤ t.time := by
  induction tags generalizing a with
  | nil => exact ⟨a, rfl, le_refl a, Or.inl rfl, by simp⟩
  | cons t rest ih =>
    rw [List.foldl_cons]
    by_cases hm : t.launch = launch ∧ t.capture = capture
    · rw [hold_worst_step, if_pos hm]
      obtain ⟨w, hw, hwle, hwmem, hwall⟩ := ih (min a t.time)
      refine ⟨w, hw, le_trans hwle (min_le_left _ _), ?_, ?_⟩
      · rcases hwmem with rfl | ⟨u, hu, hum, hut⟩
        · rcases min_choice a t.time with hmin | hmin
          · exact Or.inl hmin
          · exact Or.inr ⟨t, List.mem_cons_self t rest, hm, hmin.symm⟩
        · exact Or.inr ⟨u, List.mem_cons_of_mem t hu, hum, hut⟩
      · intro u hu hul huc
        rcases List.mem_cons.mp hu with rfl | h
        · exact le_trans hwle (min_le_right _ _)
        · exact hwall u h hul huc
    · rw [hold_worst_step, if_neg hm]
      obtain ⟨w, hw, hwle, hwmem, hwall⟩ := ih a
      refine ⟨w, hw, hwle, ?_, ?_⟩
      · rcases hwmem with rfl | ⟨u, hu, hum, hut⟩
        · exact Or.inl rfl
        · exact Or.inr ⟨u, List.mem_cons_of_mem t hu, hum, hut⟩
      · intro u hu hul huc
        rcases List.mem_cons.mp hu with rfl | h
        · exact absurd ⟨hul, huc⟩ hm
        · exact hwall u h hul huc

lemma hold_worst_none_iff (launch capture : DomainId) (tags : List TimingTag) :
    find_hold_worst_slack tags launch capture = none
      ↔ ∀ t ∈ tags, ¬(t.launch = launch ∧ t.capture = capture) := by
  rw [find_hold_worst_slack]
  induction tags with
  | nil => simp
  | cons t rest ih =>
    rw [List.foldl_cons]
    by_cases hm : t.launch = launch ∧ t.capture = capture
    · rw [hold_worst_step, if_pos hm]
      obtain ⟨w, hw, _, _, _⟩ := hold_worst_foldl_some launch capture rest t.time
      simp only [hw]
      constructor
      · intro hc
        exact absurd hc (by simp)
      · intro hall
        exact absurd hm (hall t (List.mem_cons_self t rest))
    · rw [hold_worst_step, if_neg hm]
      constructor
      · intro hc u hu
        rcases List.mem_cons.mp hu with rfl | h
        · exact hm
        · exact (ih.mp hc) u h
      · intro hall
        exact ih.mpr (fun u hu => hall u (List.mem_cons_of_mem t hu))

lemma hold_worst_some_spec (launch capture : DomainId) (tags : List TimingTag)
    (w : ℚ) (hw : find_hold_worst_slack tags launch capture = some w) :
    (∃ t ∈ tags, (t.launch = launch ∧ t.capture = capture) ∧ t.time = w)
    ∧ ∀ t ∈ tags, t.launch = launch → t.capture = capture → w ≤ t.time := by
  rw [find_hold_worst_slack] at hw
  induction tags with
  | nil => exact absurd hw (by simp)
  | cons t rest ih =>
    rw [List.foldl_cons] at hw
    by_cases hm : t.launch = launch ∧ t.capture = capture
    · rw [hold_worst_step, if_pos hm] at hw
      obtain ⟨w2, hw2, hwle, hwmem, hwall⟩ :=
        hold_worst_foldl_some launch capture rest t.time
      rw [hw2] at hw
      have hww : w2 = w := Option.some_inj.mp hw
      subst hww
      constructor
      · rcases hwmem with rfl | ⟨u, hu, hum, hut⟩
        · exact ⟨t, List.mem_cons_self t rest, hm, rfl⟩
        · exact ⟨u, List.mem_cons_of_mem t hu, hum, hut⟩
      · intro u hu hul huc
        rcases List.mem_cons.mp hu with rfl | h
        · exact hwle
        · exact hwall u h hul huc
    · rw [hold_worst_step, if_neg hm] at hw
      obtain ⟨⟨u, hu, hum, hut⟩, hall⟩ := ih hw
      constructor
      · exact ⟨u, List.mem_cons_of_mem t hu, hum, hut⟩
      · intro v hv hvl hvc
        rcases List.mem_cons.mp hv with rfl | h
        · exact absurd ⟨hvl, hvc⟩ hm
        · exact hall v h hvl hvc

/-- C8: `find_hold_worst_slack` returns the minimum slack over exactly the
tags matching the requested launch/capture pair, returns the `+infinity`
sentinel if and only if no matching tag exists, and the rows of the
hold-timing summary contain exactly the non-sentinel results (the sentinel
is skipped, never printed as a numeric value). -/
theorem claim_C8_hold_worst_slack :
    (∀ (tags : List TimingTag) (launch capture : DomainId),
      find_hold_worst_slack tags launch capture = none
        ↔ ∀ t ∈ tags, ¬(t.launch = launch ∧ t.capture = capture))
    ∧ (∀ (tags : List TimingTag) (launch capture : DomainId) (w : ℚ),
        find_hold_worst_slack tags launch capture = some w →
        (∃ t ∈ tags, (t.launch = launch ∧ t.capture = capture) ∧ t.time = w)
        ∧ ∀ t ∈ tags, t.launch = launch → t.capture = capture → w ≤ t.time)
    ∧ (∀ (clock_domains : List DomainId) (tags : List TimingTag)
        (d : DomainId) (w : ℚ),
        (d, w) ∈ print_hold_intra_summary clock_domains tags
          ↔ d ∈ clock_domains ∧ find_hold_worst_slack tags d d = some w)
    ∧ (∀ (clock_domains : List DomainId) (tags : List TimingTag)
        (launch capture : DomainId) (w : ℚ),
        (launch, capture, w) ∈ print_hold_inter_summary clock_domains tags
          → launch ≠ capture
            ∧ find_hold_worst_slack tags launch capture = some w) := by
  refine ⟨fun tags launch capture => hold_worst_none_iff launch capture tags,
    fun tags launch capture w hw => hold_worst_some_spec launch capture tags w hw,
    ?_, ?_⟩
  · intro clock_domains tags d w
    simp only [print_hold_intra_summary, List.mem_filterMap,
      Option.map_eq_some', Prod.mk.injEq]
    constructor
    · rintro ⟨a, ha, ws, hws, rfl, rfl⟩
      exact ⟨ha, hws⟩
    · rintro ⟨hd, hw⟩
      exact ⟨d, hd, w, hw, rfl, rfl⟩
  · intro clock_domains tags launch capture w h
    simp only [print_hold_inter_summary, List.mem_flatMap, List.mem_filterMap] at h
    obtain ⟨a, ha, b, hb, hab⟩ := h
    by_cases hne : a ≠ b
    · rw [if_pos hne] at hab
      obtain ⟨ws, hws, heq⟩ := Option.map_eq_some'.mp hab
      simp only [Prod.mk.injEq] at heq
      obtain ⟨rfl, rfl, rfl⟩ := heq
      exact ⟨hne, hws⟩
    · rw [if_neg hne] at hab
      exact absurd hab (by simp)

/-- C8 witness: a concrete tag stream where the matching tags for pair
`(0, 1)` have slacks `{5, 3}`; the result is `3`, a matching tag's value
and a lower bound on every matching tag. -/
theorem claim_C8_witness :
    find_hold_worst_slack
      [⟨TagType.SLACK, 0, 1, 5⟩, ⟨TagType.SLACK, 0, 1, 3⟩,
        ⟨TagType.SLACK, 2, 2, -7⟩] 0 1 = some 3
    ∧ (∃ t ∈ ([⟨TagType.SLACK, 0, 1, 5⟩, ⟨TagType.SLACK, 0, 1, 3⟩,
        ⟨TagType.SLACK, 2, 2, -7⟩] : List TimingTag),
        (t.launch = 0 ∧ t.capture = 1) ∧ t.time = 3)
    ∧ ∀ t ∈ ([⟨TagType.SLACK, 0, 1, 5⟩, ⟨TagType.SLACK, 0, 1, 3⟩,
        ⟨TagType.SLACK, 2, 2, -7⟩] : List TimingTag),
        t.launch = 0 → t.capture = 1 → 3 ≤ t.time := by
  have h : find_hold_worst_slack
      [⟨TagType.SLACK, 0, 1, 5⟩, ⟨TagType.SLACK, 0, 1, 3⟩,
        ⟨TagType.SLACK, 2, 2, -7⟩] 0 1 = some 3 := by
    norm_num [find_hold_worst_slack, List.foldl, hold_worst_step, min_def]
  exact ⟨h, (claim_C8_hold_worst_slack.2.1 _ 0 1 3 h).1,
    (claim_C8_hold_worst_slack.2.1 _ 0 1 3 h).2⟩

/-! ## Relaxed criticality (`calc_relaxed_criticality`)

The two precomputed `std::map<DomainPair, float>` aggregates are modelled
as functions `DomainPair → Option ℚ` (`none` models a missing entry, whose
lookup trips the fatal `VTR_ASSERT_MSG`).  Every `VTR_ASSERT` in the loop
body is modelled as an early `none` return. -/

/-- The allowable round-off tolerance
`CRITICALITY_ROUND_OFF_TOLERANCE = 1e-4`. -/
def CRITICALITY_ROUND_OFF_TOLERANCE : ℚ := 1 / 10000

/-- The shift block of `calc_relaxed_criticality`: when the domain pair's
worst slack is negative, both the tag's slack and the maximum required
time are shifted by `shift = -worst_slack`; the result is the pair
`(shifted slack, shifted max_req)`. -/
def shifted_slack_req (max_req worst_slack slack : ℚ) : ℚ × ℚ :=
  if worst_slack < 0 then (slack + -worst_slack, max_req + -worst_slack)
  else (slack, max_req)

/-- The raw criticality `crit = 1. - (slack / max_req)` computed on the
shifted values. -/
def crit_of (max_req worst_slack slack : ℚ) : ℚ :=
  1 - (shifted_slack_req max_req worst_slack slack).1
        / (shifted_slack_req max_req worst_slack slack).2

/-- The body of the loop of `calc_relaxed_criticality` for one tag:
the `SLACK`-kind assertion, the two aggregate-map lookups, the shift, the
`max_req > 0` assertion, the soft round-off checks and the clamp
`crit = max(0, crit); crit = min(1, crit)`.  `none` models a fatal
`VTR_ASSERT` failure. -/
def tag_criticality (domains_max_req domains_worst_slack : DomainPair → Option ℚ)
    (tag : TimingTag) : Option ℚ :=
  if tag.ttype = TagType.SLACK then
    match domains_max_req (tag.launch, tag.capture),
          domains_worst_slack (tag.launch, tag.capture) with
    | some max_req, some worst_slack =>
      if 0 < (shifted_slack_req max_req worst_slack tag.time).2 then
        if -CRITICALITY_ROUND_OFF_TOLERANCE ≤ crit_of max_req worst_slack tag.time
            ∧ crit_of max_req worst_slack tag.time
                ≤ 1 + CRITICALITY_ROUND_OFF_TOLERANCE then
          some (min 1 (max 0 (crit_of max_req worst_slack tag.time)))
        else none
      else none
    | _, _ => none
  else none

/-- Embeds `calc_relaxed_criticality`: fold `max_crit = max(max_crit, crit)`
starting from `0` over the tags, followed by the final assertions
`0 ≤ max_crit ≤ 1`. -/
def calc_relaxed_criticality (domains_max_req domains_worst_slack : DomainPair → Option ℚ)
    (tags : List TimingTag) : Option ℚ :=
  (tags.foldlM (fun max_crit tag =>
      (tag_criticality domains_max_req domains_worst_slack tag).map
        (fun crit => max max_crit crit)) (0 : ℚ)).bind
    (fun max_crit => if 0 ≤ max_crit ∧ max_crit ≤ 1 then some max_crit else none)

/-- The preconditions of the relaxed criticality calculation for one tag,
as stated by the specification: the tag is of kind `SLACK`, both aggregate
maps contain an entry for the tag's domain pair, the maximum required time
is strictly positive after shifting, and the computed criticality is
within the round-off tolerance of `[0, 1]` (drift beyond the tolerance is
a fatal precondition violation per the error-handling design). -/
def tag_precondition (domains_max_req domains_worst_slack : DomainPair → Option ℚ)
    (tag : TimingTag) : Prop :=
  tag.ttype = TagType.SLACK
  ∧ ∃ max_req worst_slack,
      domains_max_req (tag.launch, tag.capture) = some max_req
      ∧ domains_worst_slack (tag.launch, tag.capture) = some worst_slack
      ∧ 0 < (shifted_slack_req max_req worst_slack tag.time).2
      ∧ -CRITICALITY_ROUND_OFF_TOLERANCE ≤ crit_of max_req worst_slack tag.time
      ∧ crit_of max_req worst_slack tag.time ≤ 1 + CRITICALITY_ROUND_OFF_TOLERANCE

lemma tag_criticality_some_some (dmr dws : DomainPair → Option ℚ)
    (tag : TimingTag) (max_req worst_slack : ℚ)
    (ht : tag.ttype = TagType.SLACK)
    (hmr : dmr (tag.launch, tag.capture) = some max_req)
    (hws : dws (tag.launch, tag.capture) = some worst_slack) :
    tag_criticality dmr dws tag
      = if 0 < (shifted_slack_req max_req worst_slack tag.time).2 then
          if -CRITICALITY_ROUND_OFF_TOLERANCE ≤ crit_of max_req worst_slack tag.time
              ∧ crit_of max_req worst_slack tag.time
                  ≤ 1 + CRITICALITY_ROUND_OFF_TOLERANCE then
            some (min 1 (max 0 (crit_of max_req worst_slack tag.time)))
          else none
        else none := by
  rw [tag_criticality, if_pos ht, hmr, hws]

lemma tag_criticality_eq_some_iff (dmr dws : DomainPair → Option ℚ)
    (tag : TimingTag) (c : ℚ) :
    tag_criticality dmr dws tag = some c ↔
      tag.ttype = TagType.SLACK
      ∧ ∃ max_req worst_slack,
          dmr (tag.launch, tag.capture) = some max_req
          ∧ dws (tag.launch, tag.capture) = some worst_slack
          ∧ 0 < (shifted_slack_req max_req worst_slack tag.time).2
          ∧ -CRITICALITY_ROUND_OFF_TOLERANCE ≤ crit_of max_req worst_slack tag.time
          ∧ crit_of max_req worst_slack tag.time ≤ 1 + CRITICALITY_ROUND_OFF_TOLERANCE
          ∧ c = min 1 (max 0 (crit_of max_req worst_slack tag.time)) := by
  by_cases ht : tag.ttype = TagType.SLACK
  · cases hmr : dmr (tag.launch, tag.capture) with
    | none =>
      rw [tag_criticality, if_pos ht, hmr]
      simp [ht]
    | some max_req =>
      cases hws : dws (tag.launch, tag.capture) with
      | none =>
        rw [tag_criticality, if_pos ht, hmr, hws]
        simp [ht, hmr]
      | some worst_slack =>
        rw [tag_criticality_some_some dmr dws tag max_req worst_slack ht hmr hws]
        constructor
        · intro h
          split_ifs at h with hpos htol
          · exact ⟨ht, max_req, worst_slack, rfl, rfl, hpos, htol.1, htol.2,
              (Option.some_inj.mp h).symm⟩
        · rintro ⟨-, mr2, ws2, hmr2, hws2, hpos, h1, h2, rfl⟩
          obtain rfl : max_req = mr2 := Option.some_inj.mp hmr2
          obtain rfl : worst_slack = ws2 := Option.some_inj.mp hws2
          rw [if_pos hpos, if_pos ⟨h1, h2⟩]
  · rw [tag_criticality, if_neg ht]
    simp [ht]

lemma tag_criticality_bounds (dmr dws : DomainPair → Option ℚ)
    (tag : TimingTag) (c : ℚ) (h : tag_criticality dmr dws tag = some c) :
    0 ≤ c ∧ c ≤ 1 := by
  obtain ⟨-, mr, ws, -, -, -, -, -, rfl⟩ :=
    (tag_criticality_eq_some_iff dmr dws tag c).mp h
  exact ⟨le_min zero_le_one (le_max_left 0 _), min_le_left 1 _⟩

lemma tag_criticality_total (dmr dws : DomainPair → Option ℚ)
    (tag : TimingTag) (h : tag_precondition dmr dws tag) :
    ∃ c, tag_criticality dmr dws tag = some c := by
  obtain ⟨ht, mr, ws, hmr, hws, hpos, h1, h2⟩ := h
  exact ⟨min 1 (max 0 (crit_of mr ws tag.time)),
    (tag_criticality_eq_some_iff dmr dws tag _).mpr
      ⟨ht, mr, ws, hmr, hws, hpos, h1, h2, rfl⟩⟩

lemma calc_foldlM_spec (dmr dws : DomainPair → Option ℚ)
    (tags : List TimingTag) (acc : ℚ) (h0 : 0 ≤ acc) (h1 : acc ≤ 1)
    (hall : ∀ t ∈ tags, tag_precondition dmr dws t) :
    ∃ r, tags.foldlM (fun max_crit tag =>
        (tag_criticality dmr dws tag).map (fun crit => max max_crit crit)) acc
          = some r
      ∧ 0 ≤ r ∧ r ≤ 1 := by
  induction tags generalizing acc with
  | nil => exact ⟨acc, rfl, h0, h1⟩
  | cons t rest ih =>
    obtain ⟨c, hc⟩ := tag_criticality_total dmr dws t
      (hall t (List.mem_cons_self t rest))
    obtain ⟨hc0, hc1⟩ := tag_criticality_bounds dmr dws t c hc
    obtain ⟨r, hr, hr0, hr1⟩ := ih (max acc c) (le_trans h0 (le_max_left _ _))
      (max_le h1 hc1) (fun u hu => hall u (List.mem_cons_of_mem t hu))
    refine ⟨r, ?_, hr0, hr1⟩
    rw [List.foldlM_cons, hc]
    exact hr

/-- C1: for every input satisfying the preconditions (every tag of kind
SLACK, both aggregate maps defined on every tag's domain pair, maximum
required time positive after shifting, raw criticality within the
round-off tolerance), `calc_relaxed_criticality` returns a value in
`[0, 1]`; and, being a pure function of its arguments, it is
deterministic: two calls on the same aggregate maps and tag collection
return the identical value. -/
theorem claim_C1_criticality_bounded :
    (∀ (domains_max_req domains_worst_slack : DomainPair → Option ℚ)
        (tags : List TimingTag),
      (∀ t ∈ tags, tag_precondition domains_max_req domains_worst_slack t) →
      ∃ c, calc_relaxed_criticality domains_max_req domains_worst_slack tags
            = some c
        ∧ 0 ≤ c ∧ c ≤ 1)
    ∧ (∀ (domains_max_req domains_worst_slack : DomainPair → Option ℚ)
        (tags : List TimingTag),
        calc_relaxed_criticality domains_max_req domains_worst_slack tags
          = calc_relaxed_criticality domains_max_req domains_worst_slack tags) := by
  refine ⟨?_, fun _ _ _ => rfl⟩
  intro dmr dws tags hall
  obtain ⟨r, hr, hr0, hr1⟩ :=
    calc_foldlM_spec dmr dws tags 0 (le_refl 0) zero_le_one hall
  refine ⟨r, ?_, hr0, hr1⟩
  rw [calc_relaxed_criticality, hr, Option.some_bind, if_pos ⟨hr0, hr1⟩]

/-- C1 witness: the specification's shifted scenario (`max_req = 10`,
tag slack `2`, domain worst slack `-1`) satisfies the preconditions, and
the returned criticality lies in `[0, 1]`. -/
theorem claim_C1_witness :
    (∀ t ∈ ([⟨TagType.SLACK, 0, 0, 2⟩] : List TimingTag),
      tag_precondition (fun _ => some 10) (fun _ => some (-1)) t)
    ∧ ∃ c, calc_relaxed_criticality (fun _ => some 10) (fun _ => some (-1))
          [⟨TagType.SLACK, 0, 0, 2⟩] = some c
        ∧ 0 ≤ c ∧ c ≤ 1 := by
  have hpre : ∀ t ∈ ([⟨TagType.SLACK, 0, 0, 2⟩] : List TimingTag),
      tag_precondition (fun _ => some 10) (fun _ => some (-1)) t := by
    intro t ht
    rw [List.mem_singleton] at ht
    subst ht
    refine ⟨rfl, 10, -1, rfl, rfl, ?_, ?_, ?_⟩
      <;> norm_num [shifted_slack_req, crit_of, CRITICALITY_ROUND_OFF_TOLERANCE]
  exact ⟨hpre, claim_C1_criticality_bounded.1 _ _ _ hpre⟩

lemma shifted_slack_req_fst (max_req worst_slack slack : ℚ) :
    (shifted_slack_req max_req worst_slack slack).1
      = if worst_slack < 0 then slack + -worst_slack else slack := by
  rw [shifted_slack_req]
  split_ifs <;> rfl

lemma shifted_slack_req_snd (max_req worst_slack slack : ℚ) :
    (shifted_slack_req max_req worst_slack slack).2
      = if worst_slack < 0 then max_req + -worst_slack else max_req := by
  rw [shifted_slack_req]
  split_ifs <;> rfl

/-- C2: for fixed aggregate maps and a fixed domain pair, the per-tag
criticality computed by the loop body of `calc_relaxed_criticality` is
monotonically non-decreasing as the tag's slack decreases: for two SLACK
tags on the same domain pair with slacks `s1 ≤ s2`, the criticality
computed for `s1` is `≥` the criticality computed for `s2`. -/
theorem claim_C2_criticality_antitone :
    ∀ (domains_max_req domains_worst_slack : DomainPair → Option ℚ)
      (launch capture : DomainId) (s1 s2 c1 c2 : ℚ),
      s1 ≤ s2 →
      tag_criticality domains_max_req domains_worst_slack
        ⟨TagType.SLACK, launch, capture, s1⟩ = some c1 →
      tag_criticality domains_max_req domains_worst_slack
        ⟨TagType.SLACK, launch, capture, s2⟩ = some c2 →
      c2 ≤ c1 := by
  intro dmr dws launch capture s1 s2 c1 c2 hs h1 h2
  obtain ⟨-, mr1, ws1, hmr1, hws1, hpos1, -, -, rfl⟩ :=
    (tag_criticality_eq_some_iff dmr dws _ c1).mp h1
  obtain ⟨-, mr2, ws2, hmr2, hws2, hpos2, -, -, rfl⟩ :=
    (tag_criticality_eq_some_iff dmr dws _ c2).mp h2
  obtain rfl : mr1 = mr2 := Option.some_inj.mp (hmr1.symm.trans hmr2)
  obtain rfl : ws1 = ws2 := Option.some_inj.mp (hws1.symm.trans hws2)
  have hR := hpos1
  rw [shifted_slack_req_snd] at hR
  have hkey : crit_of mr1 ws1 s2 ≤ crit_of mr1 ws1 s1 := by
    rw [crit_of, crit_of, shifted_slack_req_fst, shifted_slack_req_fst,
      shifted_slack_req_snd, shifted_slack_req_snd]
    by_cases hw : ws1 < 0
    · simp only [if_pos hw] at hR ⊢
      rw [div_eq_mul_inv, div_eq_mul_inv]
      have hi : (0:ℚ) ≤ (mr1 + -ws1)⁻¹ := inv_nonneg.mpr hR.le
      have hm := mul_le_mul_of_nonneg_right
        (show s1 + -ws1 ≤ s2 + -ws1 by linarith) hi
      linarith
    · simp only [if_neg hw] at hR ⊢
      rw [div_eq_mul_inv, div_eq_mul_inv]
      have hi : (0:ℚ) ≤ mr1⁻¹ := inv_nonneg.mpr hR.le
      have hm := mul_le_mul_of_nonneg_right hs hi
      linarith
  exact min_le_min (le_refl 1) (max_le_max (le_refl 0) hkey)

/-- C2 witness: with `max_req = 10` and worst slack `0` on the pair, slacks
`2 ≤ 5` yield criticalities `0.8 ≥ 0.5`. -/
theorem claim_C2_witness :
    (2:ℚ) ≤ 5
    ∧ tag_criticality (fun _ => some 10) (fun _ => some 0)
        ⟨TagType.SLACK, 0, 0, 2⟩ = some (4/5)
    ∧ tag_criticality (fun _ => some 10) (fun _ => some 0)
        ⟨TagType.SLACK, 0, 0, 5⟩ = some (1/2)
    ∧ (1/2 : ℚ) ≤ 4/5 := by
  have e1 : tag_criticality (fun _ => some 10) (fun _ => some 0)
      ⟨TagType.SLACK, 0, 0, 2⟩ = some (4/5) := by
    rw [tag_criticality_some_some _ _ _ 10 0 rfl rfl rfl]
    norm_num [shifted_slack_req, crit_of, CRITICALITY_ROUND_OFF_TOLERANCE,
      min_def, max_def]
  have e2 : tag_criticality (fun _ => some 10) (fun _ => some 0)
      ⟨TagType.SLACK, 0, 0, 5⟩ = some (1/2) := by
    rw [tag_criticality_some_some _ _ _ 10 0 rfl rfl rfl]
    norm_num [shifted_slack_req, crit_of, CRITICALITY_ROUND_OFF_TOLERANCE,
      min_def, max_def]
  exact ⟨by norm_num, e1, e2,
    claim_C2_criticality_antitone (fun _ => some 10) (fun _ => some 0)
      0 0 2 5 (4/5) (1/2) (by norm_num) e1 e2⟩

/-- C3 counterexample: with `max_req = 10`, domain worst slack `0 ≥ 0` (so
no shift is applied) and tag slack `10.0001`, the raw ratio
`1 - slack/max_req = -0.00001` is within the round-off tolerance, so the
code clamps it and the computed per-tag criticality is `0`, which differs
from the claimed unclamped value `1 - slack/max_req`. -/
theorem claim_C3_counterexample :
    (0:ℚ) ≤ 0
    ∧ tag_criticality (fun _ => some 10) (fun _ => some 0)
        ⟨TagType.SLACK, 0, 0, 100001/10000⟩ = some 0
    ∧ (0:ℚ) ≠ 1 - (100001/10000) / 10 := by
  refine ⟨le_refl 0, ?_, by norm_num⟩
  rw [tag_criticality_some_some _ _ _ 10 0 rfl rfl rfl]
  norm_num [shifted_slack_req, crit_of, CRITICALITY_ROUND_OFF_TOLERANCE,
    min_def, max_def]

/-- C3 (amended): for every tag whose domain pair has design-wide worst
slack `≥ 0`, the shift is zero and the per-tag criticality equals
`1 - slack/max_req` computed on the unshifted values and clamped into
`[0, 1]`; whenever the unclamped ratio already lies in `[0, 1]` — in
particular in the `max_req = 10ns`, `slack = 2ns`, worst slack `2ns`
scenario, where it is `0.8` — the clamp is the identity and the
criticality equals `1 - slack/max_req` exactly. -/
theorem claim_C3_no_shift_amended :
    ∀ (domains_max_req domains_worst_slack : DomainPair → Option ℚ)
      (tag : TimingTag) (max_req worst_slack c : ℚ),
      domains_max_req (tag.launch, tag.capture) = some max_req →
      domains_worst_slack (tag.launch, tag.capture) = some worst_slack →
      0 ≤ worst_slack →
      tag_criticality domains_max_req domains_worst_slack tag = some c →
      c = min 1 (max 0 (1 - tag.time / max_req))
      ∧ (0 ≤ 1 - tag.time / max_req → 1 - tag.time / max_req ≤ 1 →
          c = 1 - tag.time / max_req) := by
  intro dmr dws tag mr ws c hmr hws hw h
  obtain ⟨-, mr2, ws2, hmr2, hws2, -, -, -, rfl⟩ :=
    (tag_criticality_eq_some_iff dmr dws tag c).mp h
  obtain rfl : mr2 = mr := Option.some_inj.mp (hmr2.symm.trans hmr)
  obtain rfl : ws2 = ws := Option.some_inj.mp (hws2.symm.trans hws)
  have hnw : ¬ ws2 < 0 := not_lt.mpr hw
  have hcrit : crit_of mr2 ws2 tag.time = 1 - tag.time / mr2 := by
    rw [crit_of, shifted_slack_req_fst, shifted_slack_req_snd,
      if_neg hnw, if_neg hnw]
  constructor
  · rw [hcrit]
  · intro hlo hhi
    rw [hcrit, max_eq_right hlo, min_eq_right hhi]

/-- C3 witness: the amended theorem instantiated on the specification's
unshifted scenario `max_req = 10`, tag slack `2`, domain worst slack `2`,
yielding criticality `1 - 2/10 = 0.8`. -/
theorem claim_C3_witness :
    (0:ℚ) ≤ 2
    ∧ tag_criticality (fun _ => some 10) (fun _ => some 2)
        ⟨TagType.SLACK, 0, 0, 2⟩ = some (4/5)
    ∧ (4/5 : ℚ) = 1 - 2 / 10 := by
  have e : tag_criticality (fun _ => some 10) (fun _ => some 2)
      ⟨TagType.SLACK, 0, 0, 2⟩ = some (4/5) := by
    rw [tag_criticality_some_some _ _ _ 10 2 rfl rfl rfl]
    norm_num [shifted_slack_req, crit_of, CRITICALITY_ROUND_OFF_TOLERANCE,
      min_def, max_def]
  have h := claim_C3_no_shift_amended (fun _ => some 10) (fun _ => some 2)
    ⟨TagType.SLACK, 0, 0, 2⟩ 10 2 (4/5) rfl rfl (by norm_num) e
  exact ⟨by norm_num, e, h.2 (by norm_num) (by norm_num)⟩

/-! ## Slack histograms (`create_setup_slack_histogram`,
`create_hold_slack_histogram`)

The float accumulators for the min/max pass start at `±infinity`; the
fold is modelled with an `Option ℚ` accumulator where
`min(+infinity, s) = s` becomes the `none => s` case (and dually for the
max).  On an empty tag stream the float code computes meaningless infinite
bounds; the model returns `none` there (the claims only concern non-empty
streams).  `std::lower_bound` with the comparator
`bucket.max_value < slack` returns the first bucket whose `max_value` is
`≥ slack`; since the bucket `max_value`s are ascending, the binary search
coincides with the first-match scan modelled by `find_bucket_idx`.  The
bucket `count` is a C++ `int`, modelled as `ℤ`. -/

/-- A histogram bucket (`HistogramBucket`): a value range and a count,
zero-initialized on construction. -/
structure HistogramBucket where
  min_value : ℚ
  max_value : ℚ
  count : ℤ
deriving DecidableEq, Repr

/-- The min pass `min_slack = std::min(min_slack, slack)` starting from
`+infinity` (`none`). -/
def slack_min (slacks : List ℚ) : Option ℚ :=
  slacks.foldl (fun min_slack slack =>
    some (match min_slack with
          | none => slack
          | some m => min m slack)) none

/-- The max pass `max_slack = std::max(max_slack, slack)` starting from
`-infinity` (`none`). -/
def slack_max (slacks : List ℚ) : Option ℚ :=
  slacks.foldl (fun max_slack slack =>
    some (match max_slack with
          | none => slack
          | some m => max m slack)) none

/-- The bucket-creation loop: `num_bins` buckets of width `bin_size`, each
starting where the previous one ended, counts zero-initialized. -/
def build_buckets (bucket_min bin_size : ℚ) : Nat → List HistogramBucket
  | 0 => []
  | n + 1 => ⟨bucket_min, bucket_min + bin_size, 0⟩
      :: build_buckets (bucket_min + bin_size) bin_size n

/-- Embeds `histogram[histogram.size()-1].max_value = max_slack`: force the
last bucket's upper bound to the exact maximum slack. -/
def set_last_max : List HistogramBucket → ℚ → List HistogramBucket
  | [], _ => []
  | [b], m => [{ b with max_value := m }]
  | b :: b2 :: rest, m => b :: set_last_max (b2 :: rest) m

/-- Embeds the `std::lower_bound` over the buckets with comparator
`bucket.max_value < slack`: index of the first bucket whose `max_value` is
`≥ slack`, `none` when there is none. -/
def find_bucket_idx (histogram : List HistogramBucket) (slack : ℚ) : Option Nat :=
  match histogram with
  | [] => none
  | b :: rest =>
    if slack ≤ b.max_value then some 0
    else (find_bucket_idx rest slack).map (fun i => i + 1)

/-- Increment the count of the bucket at the given index
(`iter->count++`). -/
def inc_bucket : List HistogramBucket → Nat → List HistogramBucket
  | [], _ => []
  | b :: rest, 0 => { b with count := b.count + 1 } :: rest
  | b :: rest, n + 1 => b :: inc_bucket rest n

/-- One iteration of the counting loop: find the bucket for the slack and
increment it; `none` models the fatal `VTR_ASSERT(iter != histogram.end())`
when no bucket is found. -/
def add_slack_to_histogram (histogram : List HistogramBucket) (slack : ℚ) :
    Option (List HistogramBucket) :=
  match find_bucket_idx histogram slack with
  | none => none
  | some i => some (inc_bucket histogram i)

/-- Embeds `create_setup_slack_histogram`: min/max pass, equal-width bucket
creation, forcing the last bucket's max, then counting every slack into
the first bucket whose max is `≥` the slack. -/
def create_setup_slack_histogram (slacks : List ℚ) (num_bins : Nat) :
    Option (List HistogramBucket) :=
  match slack_min slacks, slack_max slacks with
  | some min_slack, some max_slack =>
    let bin_size := (max_slack - min_slack) / (num_bins : ℚ)
    slacks.foldlM add_slack_to_histogram
      (set_last_max (build_buckets min_slack bin_size num_bins) max_slack)
  | _, _ => none

/-- Embeds `create_hold_slack_histogram`, whose body is a verbatim copy of
the setup version (only the analyzer tag stream differs, and that stream
is the `slacks` input here). -/
def create_hold_slack_histogram (slacks : List ℚ) (num_bins : Nat) :
    Option (List HistogramBucket) :=
  match slack_min slacks, slack_max slacks with
  | some min_slack, some max_slack =>
    let bin_size := (max_slack - min_slack) / (num_bins : ℚ)
    slacks.foldlM add_slack_to_histogram
      (set_last_max (build_buckets min_slack bin_size num_bins) max_slack)
  | _, _ => none

/-- The (min, max) range of a bucket, the part of the histogram shape that
the counting pass never modifies. -/
def bucket_bounds (b : HistogramBucket) : ℚ × ℚ := (b.min_value, b.max_value)

/-- The total of all bucket counts. -/
def sum_counts (histogram : List HistogramBucket) : ℤ :=
  (histogram.map (fun b => b.count)).sum

lemma slack_min_foldl (l : List ℚ) (a : ℚ) :
    ∃ m, l.foldl (fun min_slack slack =>
        some (match min_slack with
              | none => slack
              | some m => min m slack)) (some a) = some m
      ∧ (m = a ∨ m ∈ l) ∧ m ≤ a ∧ ∀ s ∈ l, m ≤ s := by
  induction l generalizing a with
  | nil => exact ⟨a, rfl, Or.inl rfl, le_refl a, by simp⟩
  | cons s rest ih =>
    rw [List.foldl_cons]
    obtain ⟨m, hm, hmem, hle, hall⟩ := ih (min a s)
    refine ⟨m, hm, ?_, le_trans hle (min_le_left _ _), ?_⟩
    · rcases hmem with hms | hmr
      · rcases min_choice a s with hc | hc
        · exact Or.inl (hms.trans hc)
        · exact Or.inr (by rw [hms, hc]; exact List.mem_cons_self s rest)
      · exact Or.inr (List.mem_cons_of_mem s hmr)
    · intro x hx
      rcases List.mem_cons.mp hx with rfl | hxr
      · exact le_trans hle (min_le_right a x)
      · exact hall x hxr

lemma slack_min_spec (slacks : List ℚ) (hne : slacks ≠ []) :
    ∃ m, slack_min slacks = some m ∧ m ∈ slacks ∧ ∀ s ∈ slacks, m ≤ s := by
  cases slacks with
  | nil => exact absurd rfl hne
  | cons s rest =>
    rw [slack_min, List.foldl_cons]
    obtain ⟨m, hm, hmem, hle, hall⟩ := slack_min_foldl rest s
    refine ⟨m, hm, ?_, ?_⟩
    · rcases hmem with rfl | h
      · exact List.mem_cons_self m rest
      · exact List.mem_cons_of_mem s h
    · intro x hx
      rcases List.mem_cons.mp hx with rfl | hxr
      · exact hle
      · exact hall x hxr

lemma slack_max_foldl (l : List ℚ) (a : ℚ) :
    ∃ m, l.foldl (fun max_slack slack =>
        some (match max_slack with
              | none => slack
              | some m => max m slack)) (some a) = some m
      ∧ (m = a ∨ m ∈ l) ∧ a ≤ m ∧ ∀ s ∈ l, s ≤ m := by
  induction l generalizing a with
  | nil => exact ⟨a, rfl, Or.inl rfl, le_refl a, by simp⟩
  | cons s rest ih =>
    rw [List.foldl_cons]
    obtain ⟨m, hm, hmem, hle, hall⟩ := ih (max a s)
    refine ⟨m, hm, ?_, le_trans (le_max_left _ _) hle, ?_⟩
    · rcases hmem with hms | hmr
      · rcases max_choice a s with hc | hc
        · exact Or.inl (hms.trans hc)
        · exact Or.inr (by rw [hms, hc]; exact List.mem_cons_self s rest)
      · exact Or.inr (List.mem_cons_of_mem s hmr)
    · intro x hx
      rcases List.mem_cons.mp hx with rfl | hxr
      · exact le_trans (le_max_right a x) hle
      · exact hall x hxr

lemma slack_max_spec (slacks : List ℚ) (hne : slacks ≠ []) :
    ∃ m, slack_max slacks = some m ∧ m ∈ slacks ∧ ∀ s ∈ slacks, s ≤ m := by
  cases slacks with
  | nil => exact absurd rfl hne
  | cons s rest =>
    rw [slack_max, List.foldl_cons]
    obtain ⟨m, hm, hmem, hle, hall⟩ := slack_max_foldl rest s
    refine ⟨m, hm, ?_, ?_⟩
    · rcases hmem with rfl | h
      · exact List.mem_cons_self m rest
      · exact List.mem_cons_of_mem s h
    · intro x hx
      rcases List.mem_cons.mp hx with rfl | hxr
      · exact hle
      · exact hall x hxr

lemma exists_concat (h : List HistogramBucket) (hne : h ≠ []) :
    ∃ pre b, h = pre ++ [b] := by
  induction h with
  | nil => exact absurd rfl hne
  | cons x rest ih =>
    cases rest with
    | nil => exact ⟨[], x, rfl⟩
    | cons y ys =>
      obtain ⟨pre, b, hpb⟩ := ih (by simp)
      exact ⟨x :: pre, b, by rw [List.cons_append, ← hpb]⟩

lemma set_last_max_eq (pre : List HistogramBucket) (b : HistogramBucket) (m : ℚ) :
    set_last_max (pre ++ [b]) m = pre ++ [{ b with max_value := m }] := by
  induction pre with
  | nil => rfl
  | cons x rest ih =>
    cases rest with
    | nil => rfl
    | cons y ys =>
      show x :: set_last_max ((y :: ys) ++ [b]) m = _
      rw [ih]
      simp

lemma inc_bucket_bounds (h : List HistogramBucket) (i : Nat) :
    (inc_bucket h i).map bucket_bounds = h.map bucket_bounds := by
  induction h generalizing i with
  | nil => rfl
  | cons b rest ih =>
    cases i with
    | zero => rfl
    | succ n =>
      show List.map bucket_bounds (b :: inc_bucket rest n) = _
      rw [List.map_cons, List.map_cons, ih n]

lemma inc_bucket_sum (h : List HistogramBucket) (i : Nat) (hi : i < h.length) :
    sum_counts (inc_bucket h i) = sum_counts h + 1 := by
  induction h generalizing i with
  | nil => exact absurd hi (by simp)
  | cons b rest ih =>
    cases i with
    | zero =>
      show sum_counts ({ b with count := b.count + 1 } :: rest) = _
      rw [sum_counts, sum_counts, List.map_cons, List.map_cons,
        List.sum_cons, List.sum_cons]
      show b.count + 1 + (rest.map (fun b => b.count)).sum = _
      ring
    | succ n =>
      have hn : n < rest.length := by
        simpa using Nat.lt_of_succ_lt_succ (by simpa using hi)
      have hx := ih n hn
      show sum_counts (b :: inc_bucket rest n) = _
      rw [sum_counts, sum_counts, List.map_cons, List.map_cons,
        List.sum_cons, List.sum_cons]
      have hx2 : ((inc_bucket rest n).map (fun b => b.count)).sum
          = (rest.map (fun b => b.count)).sum + 1 := hx
      omega

lemma inc_bucket_nonneg (h : List HistogramBucket) (i : Nat)
    (hall : ∀ b ∈ h, 0 ≤ b.count) : ∀ b ∈ inc_bucket h i, 0 ≤ b.count := by
  induction h generalizing i with
  | nil => simp [inc_bucket]
  | cons b rest ih =>
    cases i with
    | zero =>
      intro x hx
      rcases List.mem_cons.mp hx with rfl | hxr
      · have := hall b (List.mem_cons_self b rest)
        show (0:ℤ) ≤ b.count + 1
        omega
      · exact hall x (List.mem_cons_of_mem b hxr)
    | succ n =>
      intro x hx
      rcases List.mem_cons.mp hx with rfl | hxr
      · exact hall x (List.mem_cons_self x rest)
      · exact ih n (fun y hy => hall y (List.mem_cons_of_mem b hy)) x hxr

lemma find_bucket_idx_some (h : List HistogramBucket) (s : ℚ)
    (hex : ∃ b ∈ h, s ≤ b.max_value) :
    ∃ i, find_bucket_idx h s = some i ∧ i < h.length := by
  induction h with
  | nil =>
    rcases hex with ⟨b, hb, -⟩
    exact absurd hb (by simp)
  | cons b rest ih =>
    rw [find_bucket_idx]
    by_cases hb : s ≤ b.max_value
    · exact ⟨0, by rw [if_pos hb], by simp⟩
    · rw [if_neg hb]
      have hex2 : ∃ c ∈ rest, s ≤ c.max_value := by
        rcases hex with ⟨c, hc, hcs⟩
        rcases List.mem_cons.mp hc with rfl | hcr
        · exact absurd hcs hb
        · exact ⟨c, hcr, hcs⟩
      obtain ⟨i, hi, hlen⟩ := ih hex2
      refine ⟨i + 1, by rw [hi]; rfl, by simpa using Nat.succ_lt_succ hlen⟩

lemma bounds_cover_transfer (h h2 : List HistogramBucket)
    (heq : h2.map bucket_bounds = h.map bucket_bounds) (s : ℚ)
    (hex : ∃ b ∈ h, s ≤ b.max_value) : ∃ b ∈ h2, s ≤ b.max_value := by
  rcases hex with ⟨b, hb, hbs⟩
  have hmem : bucket_bounds b ∈ h2.map bucket_bounds := by
    rw [heq]
    exact List.mem_map_of_mem _ hb
  rcases List.mem_map.mp hmem with ⟨b2, hb2, hbb⟩
  have hbmax : b2.max_value = b.max_value := congrArg Prod.snd hbb
  exact ⟨b2, hb2, by rw [hbmax]; exact hbs⟩

lemma count_fold_spec (slacks : List ℚ) (h : List HistogramBucket)
    (hcover : ∀ s ∈ slacks, ∃ b ∈ h, s ≤ b.max_value) :
    ∃ h2, slacks.foldlM add_slack_to_histogram h = some h2
      ∧ h2.map bucket_bounds = h.map bucket_bounds
      ∧ sum_counts h2 = sum_counts h + slacks.length
      ∧ ((∀ b ∈ h, 0 ≤ b.count) → ∀ b ∈ h2, 0 ≤ b.count) := by
  induction slacks generalizing h with
  | nil => exact ⟨h, rfl, rfl, by simp, fun x => x⟩
  | cons s rest ih =>
    obtain ⟨i, hi, hlen⟩ := find_bucket_idx_some h s
      (hcover s (List.mem_cons_self s rest))
    have hcov2 : ∀ x ∈ rest, ∃ b ∈ inc_bucket h i, x ≤ b.max_value := fun x hx =>
      bounds_cover_transfer h (inc_bucket h i) (inc_bucket_bounds h i) x
        (hcover x (List.mem_cons_of_mem s hx))
    obtain ⟨h2, hh2, hbnd, hsum, hnn⟩ := ih (inc_bucket h i) hcov2
    refine ⟨h2, ?_, ?_, ?_, ?_⟩
    · rw [List.foldlM_cons, add_slack_to_histogram, hi]
      exact hh2
    · rw [hbnd, inc_bucket_bounds]
    · rw [hsum, inc_bucket_sum h i hlen]
      push_cast [List.length_cons]
      ring
    · intro hall
      exact hnn (inc_bucket_nonneg h i hall)

lemma build_buckets_length (m b : ℚ) (n : Nat) :
    (build_buckets m b n).length = n := by
  induction n generalizing m with
  | zero => rfl
  | succ k ih =>
    show (⟨m, m + b, 0⟩ :: build_buckets (m + b) b k).length = k + 1
    rw [List.length_cons, ih]

lemma build_buckets_counts (m b : ℚ) (n : Nat) :
    ∀ x ∈ build_buckets m b n, x.count = 0 := by
  induction n generalizing m with
  | zero => simp [build_buckets]
  | succ k ih =>
    intro x hx
    rcases List.mem_cons.mp hx with rfl | hxr
    · rfl
    · exact ih (m + b) x hxr

lemma sum_counts_zero (h : List HistogramBucket)
    (hz : ∀ b ∈ h, b.count = 0) : sum_counts h = 0 := by
  induction h with
  | nil => rfl
  | cons b rest ih =>
    rw [sum_counts, List.map_cons, List.sum_cons,
      hz b (List.mem_cons_self b rest)]
    rw [sum_counts] at ih
    rw [ih (fun y hy => hz y (List.mem_cons_of_mem b hy))]
    ring

lemma concat_map_last (pre1 pre2 : List HistogramBucket) (a c : HistogramBucket)
    (h : (pre1 ++ [a]).map bucket_bounds = (pre2 ++ [c]).map bucket_bounds) :
    bucket_bounds a = bucket_bounds c := by
  have hlen : pre1.length = pre2.length := by
    have hl := congrArg List.length h
    simpa using hl
  rw [List.map_append, List.map_append] at h
  have hsing := List.append_inj_right h (by simpa using hlen)
  simpa using hsing

/-- C4: for every histogram built from a non-empty slack collection with
`num_bins ≥ 1`, the bucket lookup of the counting pass never fails (the
fatal no-bucket-found branch is unreachable, so the builder returns a
histogram), the sum of all bucket counts equals the number of input
values, every count is `≥ 0`, and the last bucket's upper bound equals the
exact maximum input value; `create_hold_slack_histogram` computes the same
function as `create_setup_slack_histogram` of the slack stream. -/
theorem claim_C4_histogram_invariants :
    (∀ (slacks : List ℚ) (num_bins : Nat), slacks ≠ [] → 1 ≤ num_bins →
      ∃ h, create_setup_slack_histogram slacks num_bins = some h
        ∧ sum_counts h = slacks.length
        ∧ (∀ b ∈ h, 0 ≤ b.count)
        ∧ ∃ pre lb, h = pre ++ [lb]
            ∧ lb.max_value ∈ slacks
            ∧ ∀ s ∈ slacks, s ≤ lb.max_value)
    ∧ (∀ (slacks : List ℚ) (num_bins : Nat),
        create_hold_slack_histogram slacks num_bins
          = create_setup_slack_histogram slacks num_bins) := by
  refine ⟨?_, fun _ _ => rfl⟩
  intro slacks n hne hn
  obtain ⟨mn, hmn, hmnmem, hmnle⟩ := slack_min_spec slacks hne
  obtain ⟨mx, hmx, hmxmem, hmxge⟩ := slack_max_spec slacks hne
  have hblen : (build_buckets mn ((mx - mn) / (n : ℚ)) n).length = n :=
    build_buckets_length mn ((mx - mn) / (n : ℚ)) n
  have hbne : build_buckets mn ((mx - mn) / (n : ℚ)) n ≠ [] := by
    intro hc
    rw [hc] at hblen
    simp at hblen
    omega
  obtain ⟨pre0, lb0, hdec0⟩ := exists_concat _ hbne
  have hinit : set_last_max (build_buckets mn ((mx - mn) / (n : ℚ)) n) mx
      = pre0 ++ [{ lb0 with max_value := mx }] := by
    rw [hdec0, set_last_max_eq]
  have hz : ∀ x ∈ pre0 ++ [{ lb0 with max_value := mx }], x.count = 0 := by
    intro x hx
    rcases List.mem_append.mp hx with hx1 | hx2
    · exact build_buckets_counts mn ((mx - mn) / (n : ℚ)) n x
        (by rw [hdec0]; exact List.mem_append_left _ hx1)
    · have hxe : x = { lb0 with max_value := mx } := by simpa using hx2
      rw [hxe]
      show lb0.count = 0
      exact build_buckets_counts mn ((mx - mn) / (n : ℚ)) n lb0
        (by rw [hdec0]; exact List.mem_append_right _ (by simp))
  have hcover : ∀ s ∈ slacks,
      ∃ b ∈ pre0 ++ [{ lb0 with max_value := mx }], s ≤ b.max_value := by
    intro s hs
    refine ⟨{ lb0 with max_value := mx },
      List.mem_append_right _ (by simp), ?_⟩
    show s ≤ mx
    exact hmxge s hs
  obtain ⟨h2, hh2, hbnd, hsum, hnn⟩ := count_fold_spec slacks _ hcover
  refine ⟨h2, ?_, ?_, ?_, ?_⟩
  · rw [create_setup_slack_histogram, hmn, hmx]
    show slacks.foldlM add_slack_to_histogram
        (set_last_max (build_buckets mn ((mx - mn) / (n : ℚ)) n) mx) = some h2
    rw [hinit]
    exact hh2
  · rw [hsum, sum_counts_zero _ hz, zero_add]
  · exact hnn (fun b hb => le_of_eq (hz b hb).symm)
  · have hlen2 : h2.length = (pre0 ++ [{ lb0 with max_value := mx }]).length := by
      have hl := congrArg List.length hbnd
      simpa using hl
    have hne2 : h2 ≠ [] := by
      intro hc
      rw [hc] at hlen2
      simp at hlen2
    obtain ⟨pre2, lb2, hdec2⟩ := exists_concat h2 hne2
    have hbb : bucket_bounds lb2 = bucket_bounds { lb0 with max_value := mx } := by
      apply concat_map_last pre2 pre0
      rw [← hdec2, hbnd]
    have hmax2 : lb2.max_value = mx := congrArg Prod.snd hbb
    exact ⟨pre2, lb2, hdec2, by rw [hmax2]; exact hmxmem,
      fun s hs => by rw [hmax2]; exact hmxge s hs⟩

/-- C4 witness: the theorem instantiated on the specification's histogram
scenario, the five slack values `{-3, -1, 0, 2, 4}` with four bins. -/
theorem claim_C4_witness :
    ([(-3:ℚ), -1, 0, 2, 4] ≠ ([] : List ℚ)) ∧ 1 ≤ 4
    ∧ ∃ h, create_setup_slack_histogram [(-3:ℚ), -1, 0, 2, 4] 4 = some h
        ∧ sum_counts h = ([(-3:ℚ), -1, 0, 2, 4] : List ℚ).length
        ∧ (∀ b ∈ h, 0 ≤ b.count)
        ∧ ∃ pre lb, h = pre ++ [lb]
            ∧ lb.max_value ∈ [(-3:ℚ), -1, 0, 2, 4]
            ∧ ∀ s ∈ [(-3:ℚ), -1, 0, 2, 4], s ≤ lb.max_value :=
  ⟨by simp, by norm_num,
    claim_C4_histogram_invariants.1 [(-3:ℚ), -1, 0, 2, 4] 4 (by simp) (by norm_num)⟩

end TimingUtil
